import Mathlib

/-!
Verification development for the Harper static-site content engine.

Shallow embedding of the core data structures and algorithms:
  * the concurrent ordered list (`src/lib/src/value/list.rs`),
  * the chained error type and the render-site result combination
    (`src/lib/src/error.rs`, `src/lib/src/taxonomy/renderer.rs`),
  * the filesystem tree builder and lookups (`src/lib/src/fstree.rs`),
  * the taxonomy builder (`src/mockingbird/src/discover.rs`),
  * the metadata store's get-or-insert race (`src/lib/src/taxonomy/metadata.rs`),
  * the markdown plugin chain (`src/lib/src/markdown/markdown.rs`,
    `src/lib/src/util/hlist.rs`),
  * the heading-id / anchor stages (`src/lib/src/markdown/auto_heading.rs`),
  * the excerpt stage (`src/lib/src/markdown/snippet.rs`).

Machine integers do not overflow in any modelled routine (all are
indices/lengths), so `Nat` is used throughout.
-/

namespace Harper

/-! ## Concurrent ordered list — `src/lib/src/value/list.rs`

`List<T>` holds append-only storage (`boxcar::Vec`) plus an optional
permutation `ordering`.  We model the state after any sequence of `push` /
`sort_by` calls.  Rust's `slice::sort_by` is a stable comparison sort; for a
comparator that is a total preorder its output is the unique stable ordering,
which `insOrd`/`sortOrd` (stable insertion sort) compute. -/

/-- Stable insertion of `x` into a `cmp`-sorted list: `x` is placed in front of
the first element `y` with `cmp x y ≠ gt`, i.e. after every strictly smaller
element and after nothing equal that was already present. -/
def insOrd (cmp : α → α → Ordering) (x : α) : List α → List α
  | [] => [x]
  | y :: t => if cmp x y ≠ Ordering.gt then x :: y :: t else y :: insOrd cmp x t

/-- Stable sort by a three-way comparator; the unique stable-sort result, hence
the output of Rust's `slice::sort_by` for a total preorder comparator. -/
def sortOrd (cmp : α → α → Ordering) : List α → List α
  | [] => []
  | x :: t => insOrd cmp x (sortOrd cmp t)

/-- State of `List<T>`: `items` is the append-only storage, `ordering` the
optional display permutation (`parking_lot::RwLock<Option<Vec<usize>>>`). -/
structure MList (α : Type) where
  items : List α
  ordering : Option (List Nat)
deriving Repr, DecidableEq

/-- `List::default()` / a freshly created list. -/
def MList.empty : MList α := ⟨[], none⟩

/-- `List::push`: appends to storage; the ordering is untouched. -/
def MList.push (l : MList α) (a : α) : MList α :=
  { l with items := l.items ++ [a] }

/-- `List::len`. -/
def MList.len (l : MList α) : Nat := l.items.length

/-- `List::get`: the display index is redirected through the ordering when one
is installed (`ordering.get(i).copied().unwrap_or(i)`), then resolved against
raw storage. -/
def MList.get (l : MList α) (i : Nat) : Option α :=
  let j : Nat :=
    match l.ordering with
    | some ord => ord[i]?.getD i
    | none => i
  l.items[j]?

/-- `List::sort_by`: builds the index vector `0..count`, sorts it with the
comparator applied to `self.get(*a)` / `self.get(*b)` — that is, to elements
read **through the ordering currently installed** — and then stores the sorted
index vector as the new ordering over raw storage.  (`get` never returns `None`
here because every index is below `count`; the model's `getD default` mirrors
the source's `unwrap`.) -/
def MList.sortBy [Inhabited α] (l : MList α) (cmp : α → α → Ordering) : MList α :=
  let ord := sortOrd
    (fun a b => cmp ((l.get a).getD default) ((l.get b).getD default))
    (List.range l.items.length)
  { l with ordering := some ord }

/-- The reachable state used to exhibit the `sort_by` defect: push `2`, push
`1`, then call `sort_by(compare)` twice. -/
def c1State : MList Nat :=
  ((((MList.empty).push 2).push 1).sortBy compare).sortBy compare

/-- The same pushes followed by a single `sort_by(compare)`. -/
def c1StateOnce : MList Nat :=
  (((MList.empty).push 2).push 1).sortBy compare

/-! ## Errors — `src/lib/src/error.rs` and `src/lib/src/taxonomy/renderer.rs`

`Error` is a detail (here collapsed to its message plus the context
parameters) and an optional `prev` cause.  `Error::chain(self, other)` walks to
the deepest `prev` of `other` and hangs `self` there, returning `other`. -/

/-- The `Error` type: one detail (message + context parameters, as produced by
the `error!` macro's `MakeshiftError`) and the optional chained cause. -/
inductive MError where
  | mk (message : String) (params : List (Option String × String)) (prev : Option MError)
deriving Repr

/-- Outermost message of an error. -/
def MError.message : MError → String
  | .mk m _ _ => m

/-- Context parameters of the outermost detail. -/
def MError.params : MError → List (Option String × String)
  | .mk _ p _ => p

/-- `Error::chain(self, other)`: recurse down `other`'s `prev` chain and attach
`self` at the deepest end; the result is `other`. -/
def MError.chain (e : MError) : MError → MError
  | .mk d p none => .mk d p (some e)
  | .mk d p (some q) => .mk d p (some (MError.chain e q))

/-- All messages along the `prev` chain, outermost first. -/
def MError.chainMessages : MError → List String
  | .mk d _ none => [d]
  | .mk d _ (some q) => d :: MError.chainMessages q

/-- Message of the deepest (innermost) cause. -/
def MError.deepest : MError → String
  | .mk d _ none => d
  | .mk _ _ (some q) => MError.deepest q

/-- `render_site`'s combination of the two `rayon::join` results: `collected`
is the collection-rendering stream's result, `processResult` the top-level
resource stream's result (`src/lib/src/taxonomy/renderer.rs`, lines 19–23). -/
def renderSiteCombine (collected : Except MError β) (processResult : Except MError Unit) :
    Except MError β :=
  match collected, processResult with
  | .ok v, .ok _ => .ok v
  | .ok _, .error e => .error e
  | .error e, .ok _ => .error e
  | .error e1, .error e2 => .error (e1.chain e2)

/-- A concrete collection-stream failure, for the C2 counterexample. -/
def c2CollErr : MError := .mk ("collection stream failed") [] none

/-- A concrete resource-stream failure, for the C2 counterexample. -/
def c2ResErr : MError := .mk ("resource stream failed") [] none

/-! ## Filesystem tree — `src/lib/src/fstree.rs`

Paths are modelled as their component lists.  A walker entry (`jwalk`'s
`DirEntry`, already filtered to those whose metadata read succeeded) carries
the traversal path, the file name, a file flag and the walk depth; `jwalk`
supplies `parent_path` as the entry's path minus its final component, and
yields every directory before that directory's contents. -/

/-- One walker (`jwalk::DirEntry`) output, at the `FsTree::build_with`
boundary. -/
structure WEntry where
  path : List String
  fileName : String
  isFile : Bool
  depth : Nat
deriving Repr, DecidableEq

/-- An arena `Entry`: id, traversal path, file name, file-type flag, parent
handle, child handles and depth (`src/lib/src/fstree.rs`, lines 24–34). -/
structure FEntry where
  id : Nat
  path : List String
  fileName : String
  isFile : Bool
  parent : Option Nat
  children : List Nat
  depth : Nat
deriving Repr, DecidableEq

/-- The arena: the flat entry table plus the path → id map (`FxHashMap`
modelled as an association list whose `insert` replaces an existing key). -/
structure FTree where
  entries : List FEntry
  pmap : List (List String × Nat)
deriving Repr, DecidableEq

/-- Map lookup in the path map (first matching binding). -/
def pmapGet : List (List String × Nat) → List String → Option Nat
  | [], _ => none
  | kv :: rest, k => if kv.1 = k then some kv.2 else pmapGet rest k

/-- Map insert in the path map: replaces an existing binding, else appends. -/
def pmapInsert (m : List (List String × Nat)) (k : List String) (v : Nat) :
    List (List String × Nat) :=
  match m with
  | [] => [(k, v)]
  | kv :: rest => if kv.1 = k then (k, v) :: rest else kv :: pmapInsert rest k v

/-- `self.entries[parent.0].children.push(entry.id)`: positional update of the
parent's child list. -/
def pushChild (entries : List FEntry) (p c : Nat) : List FEntry :=
  match entries[p]? with
  | some pe => entries.set p { pe with children := pe.children ++ [c] }
  | none => entries

/-- `FsTree::insert`: the new id is the current table length; the parent is
looked up in the path map at `parent_path` (the path minus its last
component); the path map gains `path ↦ id`; the parent's child list (if a
parent was found) gains the id; the entry is appended. -/
def FTree.insertW (t : FTree) (w : WEntry) : FTree × Nat :=
  let id := t.entries.length
  let parent := pmapGet t.pmap w.path.dropLast
  let e : FEntry :=
    { id := id, path := w.path, fileName := w.fileName, isFile := w.isFile,
      parent := parent, children := [], depth := w.depth }
  let pmap := pmapInsert t.pmap w.path id
  let entries :=
    match parent with
    | some p => pushChild t.entries p id
    | none => t.entries
  ({ entries := entries ++ [e], pmap := pmap }, id)

/-- The empty arena (`FsTree::new`). -/
def FTree.emptyT : FTree := ⟨[], []⟩

/-- The insertion loop of `FsTree::build_with`: each walker entry is inserted
and the caller-supplied callback runs on the updated tree and the fresh id; a
callback failure aborts the whole build immediately. -/
def buildWithAux (cb : FTree → Nat → Except MError Unit) :
    List WEntry → FTree → Except MError FTree
  | [], t => .ok t
  | w :: ws, t =>
      let r := t.insertW w
      match cb r.1 r.2 with
      | .error e => .error e
      | .ok _ => buildWithAux cb ws r.1

/-- `FsTree::build_with` (and `build`, whose callback always succeeds): insert
every surviving walker entry, then fail with the "discovery yielded zero
files" error when the arena is empty. -/
def buildWith (root : String) (ws : List WEntry) (cb : FTree → Nat → Except MError Unit) :
    Except MError FTree := do
  let t ← buildWithAux cb ws FTree.emptyT
  if t.entries.length = 0 then
    .error (.mk ("file system tree discovery yielded zero files")
      [(some ("search root"), root)] none)
  else
    .ok t

/-- `Path::starts_with`: component-wise prefix test. -/
def listStarts (pre l : List String) : Bool := l.take pre.length == pre

/-- `Entry::path_relative_to(other)`: `None` unless `self.path` starts with
`other.path`; otherwise the last `self.depth - other.depth` components of
`self.path` (the source skips `count - n` leading components). -/
def FEntry.pathRelativeTo (e other : FEntry) : Option (List String) :=
  if listStarts other.path e.path then
    let n := e.depth - other.depth
    some (e.path.drop (e.path.length - n))
  else none

/-- `FsTree::get_id(root, path)`: join the root entry's path with the relative
path and look the result up in the path map.  (The source indexes `self[root]`
directly; an out-of-range root is modelled as `none`.) -/
def FTree.getId (t : FTree) (root : Nat) (path : List String) : Option Nat :=
  match t.entries[root]? with
  | none => none
  | some re => pmapGet t.pmap (re.path ++ path)

/-- `FsTree::get(root, path)`: `get_id` then index the arena. -/
def FTree.getE (t : FTree) (root : Nat) (path : List String) : Option FEntry :=
  (t.getId root path).bind (fun i => t.entries[i]?)

/-- Reachability along parent pointers: `Desc t r e` holds when `e` is `r` or
a descendant of `r` (every step follows a stored `parent` handle). -/
inductive FTree.Desc (t : FTree) : Nat → Nat → Prop
  | refl (r : Nat) : FTree.Desc t r r
  | step {r p c : Nat} {e : FEntry} :
      FTree.Desc t r p → t.entries[c]? = some e → e.parent = some p →
      FTree.Desc t r c

/-- A walker stream is depth-consistent (the `jwalk` contract) when every
entry's recorded depth is its path length minus the constant root-path length,
and no path is empty. -/
def WStream (base : Nat) (ws : List WEntry) : Prop :=
  ∀ w ∈ ws, w.depth + base = w.path.length ∧ w.path ≠ []

/-- All fields of an entry except its child list — the only field a later
insertion mutates (when it appends itself to its parent's children). -/
def FEntry.core (e : FEntry) : Nat × List String × Option Nat × Nat × String × Bool :=
  (e.id, e.path, e.parent, e.depth, e.fileName, e.isFile)

/-- The arena invariants maintained by `FsTree::insert` (for a walker stream
whose depths satisfy the `jwalk` contract with root-path length `base`):
entries carry their own position as id; the path map points at entries bearing
the mapped path; parents precede their children and sit at the path one
component shorter; and depths mirror path lengths. -/
structure TreeInv (base : Nat) (t : FTree) : Prop where
  idx : ∀ (i : Nat) (e : FEntry), t.entries[i]? = some e → e.id = i
  pmapEntry : ∀ (k : List String) (v : Nat), pmapGet t.pmap k = some v →
    ∃ e, t.entries[v]? = some e ∧ e.path = k
  parentInv : ∀ (i : Nat) (e : FEntry), t.entries[i]? = some e →
    ∀ p, e.parent = some p →
      p < i ∧ ∃ pe, t.entries[p]? = some pe ∧ pe.path = e.path.dropLast
  depthLen : ∀ (i : Nat) (e : FEntry), t.entries[i]? = some e →
    e.depth + base = e.path.length ∧ e.path ≠ []

/-! ## Taxonomy builder — `src/mockingbird/src/discover.rs`

`Mockingbird::discover` builds site resources from the asset root, then
collections (from `index` files) and items/data (from the remaining files)
under the content root.  Both content passes iterate the tree breadth-first
and keep only files. -/

/-- Child handles of an entry (empty for an invalid id). -/
def FTree.childrenOf (t : FTree) (i : Nat) : List Nat :=
  match t.entries[i]? with
  | some e => e.children
  | none => []

/-- Queue-based breadth-first walk.  The source's `Bfs` iterator keeps only
parents that still have unvisited children on its frontier, but its output
sequence is exactly this level-order sequence: the root, then each visited
node's children in order, first-in-first-out.  Fuel bounds the walk; one unit
is spent per emitted node, and for a tree (each node one parent, parent id <
child id) `entries.length + 1` units never run out. -/
def bfsAux (t : FTree) : Nat → List Nat → List Nat
  | 0, _ => []
  | _, [] => []
  | fuel + 1, n :: queue => n :: bfsAux t fuel (queue ++ t.childrenOf n)

/-- `FsTree::iter_breadth_first(root)` as a list of ids. -/
def FTree.bfs (t : FTree) (root : Nat) : List Nat :=
  bfsAux t (t.entries.length + 1) [root]

/-- `Bfs::files()`: breadth-first entries, files only. -/
def FTree.bfsFiles (t : FTree) (root : Nat) : List FEntry :=
  ((t.bfs root).filterMap (fun i => t.entries[i]?)).filter (fun e => e.isFile)

/-- `Entry::file_stem`: the file name up to the last dot (`rsplit_once('.')`),
or the whole name when it has no dot. -/
def fileStem (name : String) : String :=
  match name.data.reverse.dropWhile (fun c => c ≠ '.') with
  | [] => name
  | _ :: restRev => String.mk restRev.reverse

/-- A `Collection`: name, root directory handle, optional index item, direct
items and the directory-keyed data lists.  Items are represented by their
entry handle (an `Item` is an entry reference plus metadata; the metadata
plays no role in these claims). -/
structure MCollection where
  name : String
  root : Nat
  index : Option Nat
  items : List Nat
  data : List (Nat × List Nat)
deriving Repr, DecidableEq

/-- The `Site` fields the builder touches: top-level resource items and the
root-directory-keyed collection map (association list in insertion order). -/
structure MSite where
  resources : List Nat
  collections : List (Nat × MCollection)
deriving Repr, DecidableEq

/-- Collection-map lookup by root directory handle. -/
def colGet : List (Nat × MCollection) → Nat → Option MCollection
  | [], _ => none
  | kv :: rest, k => if kv.1 = k then some kv.2 else colGet rest k

/-- Collection-map update: replaces the binding for `k`, else appends. -/
def colSet (cs : List (Nat × MCollection)) (k : Nat) (c : MCollection) :
    List (Nat × MCollection) :=
  match cs with
  | [] => [(k, c)]
  | kv :: rest => if kv.1 = k then (k, c) :: rest else kv :: colSet rest k c

/-- `Site::get_or_insert_collection`: reuse the collection keyed by `root`, or
insert a fresh one with the given name. -/
def getOrInsertCollection (s : MSite) (name : String) (root : Nat) : MSite × MCollection :=
  match colGet s.collections root with
  | some c => (s, c)
  | none =>
      let c : MCollection := ⟨name, root, none, [], []⟩
      ({ s with collections := s.collections ++ [(root, c)] }, c)

/-- `Path::display` over component lists. -/
def pathDisplay (p : List String) : String := String.intercalate ("/") p

/-- Path of the entry with handle `i` (the source indexes the arena, which is
always in range where this is used). -/
def entryPathD (t : FTree) (i : Nat) : List String :=
  match t.entries[i]? with
  | some e => e.path
  | none => []

/-- The collection name: `group_dir.path_relative_to(content_root)` rendered
as a string (`to_string_lossy`). -/
def relName (t : FTree) (contentRoot : Nat) (dir : FEntry) : String :=
  match t.entries[contentRoot]? with
  | some re =>
      match dir.pathRelativeTo re with
      | some rel => pathDisplay rel
      | none => ""
  | none => ""

/-- The duplicate-index error of `Mockingbird::build_collections`: message and
context parameters exactly as the `err!` invocation lists them (an unkeyed
"faulting collection" marker, the directory path, then the two index paths). -/
def dupIndexErr (t : FTree) (groupDir : FEntry) (existing : Nat) (second : FEntry) : MError :=
  .mk ("found multiple index files for a single collection")
    [(none, ("faulting collection")),
     (none, pathDisplay groupDir.path),
     (some ("first index"), pathDisplay (entryPathD t existing)),
     (some ("second index"), pathDisplay second.path)] none

/-- Stand-in for the source's `unwrap`/index panics; unreachable on trees in
which every file entry has a live parent directory. -/
def builderPanic : MError := .mk ("taxonomy builder invariant violated") [] none

/-- The success path of one `build_collections` step: get-or-insert the
collection for directory `pd`, then store entry `fid` as its index item
(`collection.set_index_item(index.id)`). -/
def recordIndex (s : MSite) (nm : String) (pd fid : Nat) : MSite :=
  { (getOrInsertCollection s nm pd).1 with
    collections :=
      colSet (getOrInsertCollection s nm pd).1.collections pd
        { (getOrInsertCollection s nm pd).2 with index := some fid } }

/-- The loop body of `Mockingbird::build_collections` over the breadth-first
`index`-file list: each index file's parent directory becomes (or reuses) a
collection; a collection that already has an index is a hard error naming
both index paths; otherwise the file becomes the collection's index. -/
def buildCollectionsAux (t : FTree) (contentRoot : Nat) :
    List FEntry → MSite → Except MError MSite
  | [], s => .ok s
  | f :: fs, s =>
      match f.parent with
      | none => .error builderPanic
      | some pd =>
          match t.entries[pd]? with
          | none => .error builderPanic
          | some groupDir =>
              match (getOrInsertCollection s (relName t contentRoot groupDir) pd).2.index with
              | some existing => .error (dupIndexErr t groupDir existing f)
              | none =>
                  buildCollectionsAux t contentRoot fs
                    (recordIndex s (relName t contentRoot groupDir) pd f.id)

/-- `Mockingbird::build_collections`: breadth-first files under the content
root whose stem is `index`, folded through `buildCollectionsAux`. -/
def buildCollections (t : FTree) (contentRoot : Nat) (s : MSite) : Except MError MSite :=
  buildCollectionsAux t contentRoot
    ((t.bfsFiles contentRoot).filter (fun e => fileStem e.fileName == "index")) s

/-- `Mockingbird::parent`: walk parent handles upward from `e` until a
directory that owns a collection is found; `none` when the chain ends first.
Fuel bounds the walk (the source loop terminates because parent handles
strictly decrease). -/
def parentCollection (t : FTree) (s : MSite) : Nat → Nat → Option Nat
  | 0, _ => none
  | fuel + 1, e =>
      match t.entries[e]?.bind FEntry.parent with
      | none => none
      | some p =>
          if (colGet s.collections p).isSome then some p
          else parentCollection t s fuel p

/-- The classification test of `Mockingbird::build_items`:
`entry.depth - collection.entry.depth <= 1` (truncated `usize` subtraction)
selects a direct item; anything else becomes a datum. -/
def classifyDirect (rootDepth entryDepth : Nat) : Bool :=
  entryDepth - rootDepth ≤ 1

/-- `Collection::new_datum` bookkeeping: push onto the data list keyed by the
parent directory, creating the entry on first use (`entry().or_default()`). -/
def dataPush (d : List (Nat × List Nat)) (k v : Nat) : List (Nat × List Nat) :=
  match d with
  | [] => [(k, [v])]
  | kv :: rest => if kv.1 = k then (k, kv.2 ++ [v]) :: rest else kv :: dataPush rest k v

/-- The loop body of `Mockingbird::build_items` over the breadth-first
non-`index` file list: find the owning collection by walking parents (falling
back to an implicit root collection named "/"); a file whose depth exceeds the
collection root's depth by at most one becomes a direct item, anything deeper
a datum keyed by the file's immediate parent (the source `unwrap`s that
parent; the walk guarantees it exists). -/
def buildItemsAux (t : FTree) (contentRoot : Nat) :
    List FEntry → MSite → MSite
  | [], s => s
  | f :: fs, s =>
      let found :=
        match parentCollection t s (t.entries.length + 1) f.id with
        | some p => (s, p)
        | none => ((getOrInsertCollection s ("/") contentRoot).1, contentRoot)
      let s1 := found.1
      let cid := found.2
      let c := (colGet s1.collections cid).getD ⟨("/"), contentRoot, none, [], []⟩
      let rootDepth :=
        match t.entries[c.root]? with
        | some re => re.depth
        | none => 0
      let c' :=
        if classifyDirect rootDepth f.depth then
          { c with items := c.items ++ [f.id] }
        else
          { c with data := dataPush c.data (f.parent.getD 0) f.id }
      buildItemsAux t contentRoot fs { s1 with collections := colSet s1.collections cid c' }

/-- `Mockingbird::build_items`: breadth-first files under the content root
whose stem is not `index`. -/
def buildItems (t : FTree) (contentRoot : Nat) (s : MSite) : MSite :=
  buildItemsAux t contentRoot
    ((t.bfsFiles contentRoot).filter (fun e => fileStem e.fileName != "index")) s

/-- The hidden-name test of `Mockingbird::build_site_items`. -/
def hiddenName (n : String) : Bool :=
  n.startsWith (".") || n.toLower == "include" || n.toLower == "includes"

/-- The pruned depth-first resource walk of `Mockingbird::build_site_items`:
hidden names stop the descent; every visited file becomes a top-level
resource.  Fuel bounds the recursion depth. -/
def resourceWalk (t : FTree) : Nat → Nat → List Nat
  | 0, _ => []
  | fuel + 1, i =>
      match t.entries[i]? with
      | none => []
      | some e =>
          if hiddenName e.fileName then []
          else
            (if e.isFile then [e.id] else []) ++
              (t.childrenOf i).foldl (fun acc c => acc ++ resourceWalk t fuel c) []

/-- `Mockingbird::build_site_items`: no asset root means no resources. -/
def buildSiteItems (t : FTree) (assetRoot : Option Nat) (s : MSite) : MSite :=
  match assetRoot with
  | none => s
  | some r => { s with resources := s.resources ++ resourceWalk t (t.entries.length + 1) r }

/-- `Mockingbird::discover`: resources, then collections, then items. -/
def discover (t : FTree) (contentRoot : Nat) (assetRoot : Option Nat) :
    Except MError MSite := do
  let s0 := buildSiteItems t assetRoot ⟨[], []⟩
  let s1 ← buildCollections t contentRoot s0
  .ok (buildItems t contentRoot s1)

/-! ## Metadata get-or-insert race — `src/lib/src/taxonomy/metadata.rs`

`get_or_insert_raw_with(key, f)` is `get_raw` (one atomic map read) followed —
when the read saw nothing — by `f()` and `insert_raw` (one atomic map write
that replaces any existing value).  `dashmap` makes each of those two map
operations individually atomic, but nothing serialises the pair, so M racing
callers are modelled as interleavings of their check and insert steps under an
arbitrary schedule.  Values are abstracted to `Nat`. -/

/-- The metadata map for one key universe: string keys to values. -/
abbrev MetaMap := List (String × Nat)

/-- `Metadata::get_raw` (one atomic read). -/
def getRawM : MetaMap → String → Option Nat
  | [], _ => none
  | kv :: rest, k => if kv.1 = k then some kv.2 else getRawM rest k

/-- `Metadata::insert_raw` (one atomic write): replace the existing value for
the key, else insert the binding. -/
def insertRawM (m : MetaMap) (k : String) (v : Nat) : MetaMap :=
  match m with
  | [] => [(k, v)]
  | kv :: rest => if kv.1 = k then (k, v) :: rest else kv :: insertRawM rest k v

/-- Progress of one `get_or_insert_raw_with` call: not yet run; past the
`get_raw` check that saw the key absent; or returned (`ret` is the call's
return value, `invoked` whether its producer closure ran). -/
inductive CallSt where
  | start
  | checked
  | done (ret : Nat) (invoked : Bool)
deriving Repr, DecidableEq

/-- Shared map plus the per-caller progress of the M racing calls. -/
structure RaceState where
  map : MetaMap
  callers : List CallSt
deriving Repr, DecidableEq

/-- One scheduled step of caller `i`: at `start` it performs the `get_raw`
check (returning the present value, or advancing to `checked`); at `checked`
it runs its producer and performs the `insert_raw`, returning the produced
value; a finished caller does nothing. -/
def raceStep (key : String) (producer : Nat → Nat) (s : RaceState) (i : Nat) : RaceState :=
  match s.callers[i]? with
  | none => s
  | some .start =>
      match getRawM s.map key with
      | some v => { s with callers := s.callers.set i (.done v false) }
      | none => { s with callers := s.callers.set i .checked }
  | some .checked =>
      { map := insertRawM s.map key (producer i),
        callers := s.callers.set i (.done (producer i) true) }
  | some (.done _ _) => s

/-- Run M concurrent `get_or_insert_raw_with(key, f_i)` calls (caller `i`'s
producer yields `producer i`) from initial map `m0` under `sched`. -/
def raceRun (key : String) (producer : Nat → Nat) (m0 : MetaMap) (M : Nat)
    (sched : List Nat) : RaceState :=
  sched.foldl (raceStep key producer) ⟨m0, List.replicate M .start⟩

/-! ## Markdown events — the `pulldown_cmark` boundary

The structural event stream, restricted to the constructors the modelled
stages inspect; every other tag or event is collapsed to an `other`
constructor, which the stages treat exactly as the source's catch-all arms
do. -/

/-- `Tag` (start-tag payloads). -/
inductive MTag where
  | paragraph
  | emphasis
  | strong
  | strikethrough
  | blockquote
  | link (dest title : String)
  | heading (level : Nat) (id : Option String)
  | otherTag
deriving Repr, DecidableEq

/-- `TagEnd` (end-tag payloads). -/
inductive MTagEnd where
  | paragraph
  | emphasis
  | strong
  | strikethrough
  | blockquote
  | link
  | heading (level : Nat)
  | otherTagEnd
deriving Repr, DecidableEq

/-- `Event` (`stop` models `Event::End`). -/
inductive MEvent where
  | start (tag : MTag)
  | stop (tag : MTagEnd)
  | text (s : String)
  | code (s : String)
  | html (s : String)
  | softBreak
  | hardBreak
  | otherEvent
deriving Repr, DecidableEq

/-! ## Markdown plugin chain — `src/lib/src/markdown/markdown.rs` and
`src/lib/src/util/hlist.rs`

A chain `Markdown<In, HList![S1, …, Sn]>` carries its stages as a type-level
list; the model lists them in that same declaration order (head first — note
that `plugin()` conses, so the head is the stage added by the most recent
`plugin()` call).  `run` folds both hooks with `rfold!`, which pops the head
and applies its hook to the result of folding the tail. -/

/-- One pipeline stage: its preprocess (source-to-source) hook and its remap
(event-stream) hook.  `finalize` plays no role in claim C8. -/
structure MStage where
  pre : String → String
  rem : List MEvent → List MEvent

/-- `rfold!` over the preprocess hooks, exactly as `run` uses it: the head
stage's `preprocess` is applied to the result of folding the tail, so the raw
input reaches the tail-most (last-declared) stage first. -/
def preFold : List MStage → String → String
  | [], input => input
  | p :: rest, input => p.pre (preFold rest input)

/-- `rfold!` over the remap hooks: the head stage's `remap` wraps the stream
produced by folding the tail over the parser output. -/
def remapFold : List MStage → List MEvent → List MEvent
  | [], evs => evs
  | p :: rest, evs => p.rem (remapFold rest evs)

/-- `Markdown::run` (the parts claim C8 is about): preprocess the input
through `rfold!`, parse it (the pulldown-cmark parser is the boundary,
abstracted as `parse`), and remap the event stream through `rfold!`. -/
def markdownRun (stages : List MStage) (parse : String → List MEvent) (input : String) :
    String × List MEvent :=
  let text := preFold stages input
  (text, remapFold stages (parse text))

/-! ## Heading ids and anchors — `src/lib/src/markdown/auto_heading.rs` and
`src/lib/src/util/mod.rs` (`slugify`)

`slugify` transliterates each character (the external `deunicode` crate,
modelled at its boundary as the identity on ASCII and a dash otherwise), keeps
ASCII alphanumerics and underscores lowercased, and collapses every other run
into a single interior dash. -/

/-- `deunicode::deunicode_char` at the boundary: ASCII characters
transliterate to themselves; anything else is collapsed to `-` (as is the
source's `unwrap_or("-")` for unmapped characters). -/
def deunicodeChar (c : Char) : String :=
  if c.toNat ≤ 127 then String.singleton c else "-"

/-- Is a byte kept by `slugify` (`a-z`, `A-Z`, `0-9`, `_`)? -/
def slugKeep (c : Char) : Bool :=
  (('a' ≤ c && c ≤ 'z') || ('A' ≤ c && c ≤ 'Z') || ('0' ≤ c && c ≤ '9') || c == '_')

/-- `slugify`'s loop state: accumulated output and the pending-dash flag. -/
structure SlugSt where
  output : String
  needDash : Bool

/-- One byte of the `slugify` loop: a kept byte flushes a pending dash and is
appended lowercased; any other byte only marks a dash as pending (and only
once output exists, so no leading dash is ever emitted). -/
def slugStep (st : SlugSt) (c : Char) : SlugSt :=
  if slugKeep c then
    { output := (if st.needDash then st.output ++ "-" else st.output) ++
        String.singleton c.toLower,
      needDash := false }
  else
    { st with needDash := !st.output.isEmpty }

/-- `harper::util::slugify`. -/
def slugifyM (s : String) : String :=
  (s.data.foldl (fun st c => (deunicodeChar c).data.foldl slugStep st) ⟨"", false⟩).output

/-- `seen` map read (`FxHashMap<String, usize>`). -/
def seenGet : List (String × Nat) → String → Option Nat
  | [], _ => none
  | kv :: rest, k => if kv.1 = k then some kv.2 else seenGet rest k

/-- `seen` map insert: replaces an existing binding, else appends. -/
def seenInsert (m : List (String × Nat)) (k : String) (v : Nat) : List (String × Nat) :=
  match m with
  | [] => [(k, v)]
  | kv :: rest => if kv.1 = k then (k, v) :: rest else kv :: seenInsert rest k v

/-- The inner loop of `HeadingIterator::next`: drain events up to the heading
end tag, accumulating `Text`/`Code` contents and buffering every drained event
except the end tag.  `none` when the stream ends before the end tag (the
source then returns `None`, dropping the buffered events). -/
def collectHeading : List MEvent → Option (String × List MEvent × List MEvent)
  | [] => none
  | .stop (.heading _) :: rest => some ("", [], rest)
  | .text s :: rest =>
      (collectHeading rest).map (fun r => (s ++ r.1, .text s :: r.2.1, r.2.2))
  | .code s :: rest =>
      (collectHeading rest).map (fun r => (s ++ r.1, .code s :: r.2.1, r.2.2))
  | e :: rest =>
      (collectHeading rest).map (fun r => (r.1, e :: r.2.1, r.2.2))

/-- `HeadingIterator` over a whole stream: a heading start tag without an id
triggers the drain; the slug gets `-{n}` appended when already seen (the
stored count, which the source never increments past its initial `1`),
otherwise it is recorded with count `1`; the rewritten start tag is emitted
followed by the buffered events and a regenerated end tag.  Every other event
passes through.  Fuel is one unit per emitted chunk and never runs out for
`events.length + 1`. -/
def autoHeadingAux : Nat → List (String × Nat) → List MEvent → List MEvent
  | 0, _, _ => []
  | _, _, [] => []
  | fuel + 1, seen, .start (.heading lvl none) :: rest =>
      (match collectHeading rest with
       | none => []
       | some (txt, buffered, rest') =>
           let slug := slugifyM txt
           let idAndSeen :=
             match seenGet seen slug with
             | some n => (slug ++ "-" ++ toString n, seen)
             | none => (slug, seenInsert seen slug 1)
           .start (.heading lvl (some idAndSeen.1)) ::
             (buffered ++ [.stop (.heading lvl)] ++ autoHeadingAux fuel idAndSeen.2 rest'))
  | fuel + 1, seen, e :: rest => e :: autoHeadingAux fuel seen rest

/-- `AutoHeading::remap` applied to a finite stream (fresh `seen` map). -/
def autoHeadingRun (events : List MEvent) : List MEvent :=
  autoHeadingAux (events.length + 1) [] events

/-- The anchor element emitted by `AnchorIterator` for a heading id. -/
def anchorHtml (id : String) : String :=
  "<a class=\"anchor\" title=\"anchor\" href=\"#" ++ id ++ "\"></a>"

/-- `HeadingAnchor::remap`: after yielding a heading start tag that carries an
id, the next pull yields the anchor element (even when the stream ends right
after the heading tag, since the pending anchor is checked before the inner
iterator). -/
def anchorRun : List MEvent → List MEvent
  | [] => []
  | .start (.heading lvl (some id)) :: rest =>
      .start (.heading lvl (some id)) :: .html (anchorHtml id) :: anchorRun rest
  | e :: rest => e :: anchorRun rest

/-- The heading-id sequence of a stream, in order. -/
def headingIds (evs : List MEvent) : List (Option String) :=
  evs.filterMap (fun e =>
    match e with
    | .start (.heading _ i) => some i
    | _ => none)

/-- One heading titled "Intro" (start, text, end) at level 2. -/
def introHeading : List MEvent :=
  [.start (.heading 2 none), .text ("Intro"), .stop (.heading 2)]

/-- Two headings both titled "Intro". -/
def c9TwoIntro : List MEvent := introHeading ++ introHeading

/-- Three headings all titled "Intro" — the failing input for claim C9. -/
def c9ThreeIntro : List MEvent := introHeading ++ introHeading ++ introHeading

/-! ## Excerpt stage — `src/lib/src/markdown/snippet.rs`

`SnippetIterator` forwards every inner event unchanged; the state below is its
side buffer (`capture` is the open-tag stack, head = most recently pushed). -/

/-- The `SnippetIterator` fields. -/
structure SnipState where
  snippet : String
  capture : List Bool
  snipTextLen : Nat
  minLength : Nat
  done : Bool
deriving Repr, DecidableEq

/-- The `open!` macro: optionally write the opening markup and push whether
this tag's contents are captured. -/
def snipOpen (st : SnipState) (w : Option String) : SnipState :=
  match w with
  | some s => { st with snippet := st.snippet ++ s, capture := true :: st.capture }
  | none => { st with capture := false :: st.capture }

/-- The `close!` macro: optionally write the closing markup, pop the stack,
and mark the capture done once the stack is empty and the minimum visible
length has been reached. -/
def snipClose (st : SnipState) (w : Option String) : SnipState :=
  let st1 :=
    match w with
    | some s => { st with snippet := st.snippet ++ s }
    | none => st
  let st2 := { st1 with capture := st1.capture.tail }
  if st2.capture.isEmpty && st2.minLength ≤ st2.snipTextLen then
    { st2 with done := true }
  else st2

/-- The `capture!` macro: when not done and the innermost open tag captures,
write the markup and count the visible byte length. -/
def snipCapture (st : SnipState) (visibleLen : Nat) (out : String) : SnipState :=
  if !st.done && st.capture.headD false then
    { st with snippet := st.snippet ++ out, snipTextLen := st.snipTextLen + visibleLen }
  else st

/-- The side effect `SnippetIterator::next` performs for one event (the event
itself is always forwarded unchanged). -/
def snipStep (st : SnipState) (e : MEvent) : SnipState :=
  match e with
  | .start t =>
      match t with
      | .paragraph => snipOpen st (some ("<p>"))
      | .emphasis => snipOpen st (some ("<em>"))
      | .strong => snipOpen st (some ("<strong>"))
      | .strikethrough => snipOpen st (some ("<strike>"))
      | .blockquote => snipOpen st (some ("<blockquote>"))
      | .link d ti => snipOpen st (some ("<a href=\"" ++ d ++ "\" title=\"" ++ ti ++ "\">"))
      | _ => snipOpen st none
  | .stop t =>
      match t with
      | .paragraph => snipClose st (some ("</p>"))
      | .emphasis => snipClose st (some ("</em>"))
      | .strong => snipClose st (some ("</strong>"))
      | .strikethrough => snipClose st (some ("</strike>"))
      | .blockquote => snipClose st (some ("</blockquote>"))
      | .link => snipClose st (some ("</a>"))
      | _ => snipClose st none
  | .softBreak => snipCapture st 1 (" ")
  | .hardBreak => snipCapture st 0 ("<br>")
  | .code s => snipCapture st s.utf8ByteSize ("<code>" ++ s ++ "</code>")
  | .text s => snipCapture st s.utf8ByteSize s
  | _ => st

/-- `SnippetIterator` over a finite stream: each pulled event is forwarded;
when already done nothing else happens, otherwise the side buffer is updated
first. -/
def snipRun (st : SnipState) : List MEvent → List MEvent × SnipState
  | [] => ([], st)
  | e :: rest =>
      if st.done then
        let r := snipRun st rest
        (e :: r.1, r.2)
      else
        let r := snipRun (snipStep st e) rest
        (e :: r.1, r.2)

/-- The state `Snippet::remap` starts its iterator with (`done` is preset when
the configured minimum length is zero). -/
def snippetRemapInit (minLength : Nat) : SnipState :=
  ⟨"", [], 0, minLength, minLength == 0⟩

/-! ## Concrete trees and streams used by the claim instances -/

/-- The claim C3 content tree: `content/index.md`, `content/post.md`,
`content/post/extra.toml` (plus the two directories), in discovery order. -/
def c3Tree : FTree :=
  { entries :=
      [⟨0, [("content")], ("content"), false, none, [1, 2, 3], 0⟩,
       ⟨1, [("content"), ("index.md")], ("index.md"), true, some 0, [], 1⟩,
       ⟨2, [("content"), ("post.md")], ("post.md"), true, some 0, [], 1⟩,
       ⟨3, [("content"), ("post")], ("post"), false, some 0, [4], 1⟩,
       ⟨4, [("content"), ("post"), ("extra.toml")], ("extra.toml"), true, some 3, [], 2⟩],
    pmap :=
      [([("content")], 0),
       ([("content"), ("index.md")], 1),
       ([("content"), ("post.md")], 2),
       ([("content"), ("post")], 3),
       ([("content"), ("post"), ("extra.toml")], 4)] }

/-- The site claim C3 expects `discover` to produce from `c3Tree`. -/
def c3ExpectedSite : MSite :=
  { resources := [],
    collections := [(0, ⟨"", 0, some 1, [2], [(3, [4])]⟩)] }

/-- The claim C4 content tree: both `content/index.md` and
`content/index.markdown` in the same directory. -/
def c4Tree : FTree :=
  { entries :=
      [⟨0, [("content")], ("content"), false, none, [1, 2], 0⟩,
       ⟨1, [("content"), ("index.md")], ("index.md"), true, some 0, [], 1⟩,
       ⟨2, [("content"), ("index.markdown")], ("index.markdown"), true, some 0, [], 1⟩],
    pmap :=
      [([("content")], 0),
       ([("content"), ("index.md")], 1),
       ([("content"), ("index.markdown")], 2)] }

/-- A two-entry walker stream (a root directory and one file) used to witness
the C6/C7 build theorems; the root path has one component, so `base = 1`. -/
def c67Stream : List WEntry :=
  [⟨[("r")], ("r"), false, 0⟩, ⟨[("r"), ("a")], ("a"), true, 1⟩]

/-- The callback `FsTree::build` uses: always succeeds. -/
def okCallback : FTree → Nat → Except MError Unit := fun _ _ => .ok ()

/-- The tree `buildWith` produces from `c67Stream`. -/
def c67Tree : FTree :=
  { entries :=
      [⟨0, [("r")], ("r"), false, none, [1], 0⟩,
       ⟨1, [("r"), ("a")], ("a"), true, some 0, [], 1⟩],
    pmap := [([("r")], 0), ([("r"), ("a")], 1)] }

/-! # Theorems -/

/-! ## Error chaining lemmas -/

theorem MError.chainMessages_chain (e1 : MError) :
    ∀ e2 : MError, (MError.chain e1 e2).chainMessages = e2.chainMessages ++ e1.chainMessages
  | .mk _ _ none => rfl
  | .mk d p (some q) => by
      simp [MError.chain, MError.chainMessages, MError.chainMessages_chain e1 q]

theorem MError.deepest_chain (e1 : MError) :
    ∀ e2 : MError, (MError.chain e1 e2).deepest = e1.deepest
  | .mk _ _ none => rfl
  | .mk d p (some q) => by
      simp [MError.chain, MError.deepest, MError.deepest_chain e1 q]

/-! ## Claim C1 -/

/-- C1 (refuted — code bug): the spec claims that immediately after any
`sort_by(cmp)` on a reachable list state, reading `get(0), …, get(len()-1)`
yields a `cmp`-pairwise-non-decreasing sequence.  Pushing `2` then `1` and
sorting twice with the natural comparator is such a reachable state, yet the
reads give `2` then `1` with `compare 2 1 = gt`: the second `sort_by` compares
elements through the previously installed ordering but applies the resulting
permutation to raw storage.  A single `sort_by` from the fresh state does sort
(first two conjuncts). -/
theorem c1_sort_by_second_sort_unsorted :
    c1StateOnce.get 0 = some 1 ∧ c1StateOnce.get 1 = some 2 ∧
    c1State.get 0 = some 2 ∧ c1State.get 1 = some 1 ∧
    compare (2 : Nat) 1 = Ordering.gt ∧ c1State.len = 2 := by
  decide

/-! ## Claim C2 -/

/-- C2 (amended): `render_site` succeeds exactly when both streams succeed and
reports a lone failure unchanged, but when both fail the reported error is the
*second* (resource-stream) failure with the *first* (collection-stream)
failure chained at its deepest end — the inner (deepest) cause is the first
failure, not the second — and both causal chains are recorded in order. -/
theorem c2_render_site_combination :
    (∀ (β : Type) (v : β), renderSiteCombine (.ok v) (.ok ()) = .ok v) ∧
    (∀ (β : Type) (v : β) (e : MError),
        renderSiteCombine (.ok v) (.error e) = .error e) ∧
    (∀ (β : Type) (e : MError),
        renderSiteCombine (β := β) (.error e) (.ok ()) = .error e) ∧
    (∀ (β : Type) (e1 e2 : MError),
        renderSiteCombine (β := β) (.error e1) (.error e2) = .error (e1.chain e2) ∧
        (e1.chain e2).chainMessages = e2.chainMessages ++ e1.chainMessages ∧
        (e1.chain e2).deepest = e1.deepest) := by
  refine ⟨fun _ _ => rfl, fun _ _ _ => rfl, fun _ _ => rfl, fun β e1 e2 => ⟨rfl, ?_, ?_⟩⟩
  · exact MError.chainMessages_chain e1 e2
  · exact MError.deepest_chain e1 e2

/-- C2 counterexample: with both streams failing, the claim says the inner
(deepest) cause of the reported error is the second (resource-stream) failure;
on concrete one-detail errors the reported error is the resource error on the
outside with the collection error as its deepest cause. -/
theorem c2_counterexample :
    renderSiteCombine (β := Unit) (.error c2CollErr) (.error c2ResErr) =
      .error (MError.mk ("resource stream failed") [] (some c2CollErr)) ∧
    (c2CollErr.chain c2ResErr).deepest = c2CollErr.message ∧
    (c2CollErr.chain c2ResErr).deepest ≠ c2ResErr.message := by
  refine ⟨rfl, rfl, ?_⟩
  decide

/-! ## Claim C8 -/

theorem preFold_eq_foldl_reverse (stages : List MStage) (input : String) :
    preFold stages input = stages.reverse.foldl (fun acc st => st.pre acc) input := by
  induction stages with
  | nil => rfl
  | cons p rest ih => simp [preFold, List.foldl_append, ih]

theorem remapFold_eq_foldl_reverse (stages : List MStage) (evs : List MEvent) :
    remapFold stages evs = stages.reverse.foldl (fun acc st => st.rem acc) evs := by
  induction stages with
  | nil => rfl
  | cons p rest ih => simp [remapFold, List.foldl_append, ih]

/-- C8: `run` applies the preprocess hooks exactly once each, as a left fold
over the *reversed* stage list — the last-listed stage receives the raw input
first and feeds the one before it — and the remap hooks nest the opposite way:
the first-listed stage's remap wraps the folded stream of every stage listed
after it, so it sees their already-transformed events.  (Stages are listed in
the chain's type-level declaration order, head first; `plugin()` conses, so
the head is the stage added by the most recent call.) -/
theorem c8_plugin_chain_hook_orders :
    (∀ (stages : List MStage) (parse : String → List MEvent) (input : String),
        markdownRun stages parse input =
          (stages.reverse.foldl (fun acc st => st.pre acc) input,
           stages.reverse.foldl (fun acc st => st.rem acc)
             (parse (stages.reverse.foldl (fun acc st => st.pre acc) input)))) ∧
    (∀ (p : MStage) (rest : List MStage) (evs : List MEvent),
        remapFold (p :: rest) evs = p.rem (remapFold rest evs)) ∧
    (∀ (p : MStage) (rest : List MStage) (input : String),
        preFold rest (preFold [p] input) = preFold (rest ++ [p]) input) := by
  refine ⟨fun stages parse input => ?_, fun _ _ _ => rfl, fun p rest input => ?_⟩
  · show (preFold stages input, remapFold stages (parse (preFold stages input))) = _
    rw [preFold_eq_foldl_reverse, remapFold_eq_foldl_reverse]
  · rw [preFold_eq_foldl_reverse, preFold_eq_foldl_reverse, preFold_eq_foldl_reverse,
      List.reverse_append]
    rfl

/-! ## Claim C9 -/

/-- C9 (refuted in general — code bug): two headings titled "Intro" do get ids
`intro` and `intro-1`, and the anchor stage emits exactly one anchor element
referencing each id immediately after the heading's opening tag; but the claim
that all assigned ids in one document are distinct fails at three headings
titled "Intro", which get `intro`, `intro-1`, `intro-1` — the `seen` counter
is stored as `1` and never incremented. -/
theorem c9_heading_id_dedup :
    headingIds (autoHeadingRun c9TwoIntro) = [some ("intro"), some ("intro-1")] ∧
    anchorRun (autoHeadingRun c9TwoIntro) =
      [.start (.heading 2 (some ("intro"))), .html (anchorHtml ("intro")),
       .text ("Intro"), .stop (.heading 2),
       .start (.heading 2 (some ("intro-1"))), .html (anchorHtml ("intro-1")),
       .text ("Intro"), .stop (.heading 2)] ∧
    headingIds (autoHeadingRun c9ThreeIntro) =
      [some ("intro"), some ("intro-1"), some ("intro-1")] ∧
    ¬ (headingIds (autoHeadingRun c9ThreeIntro)).Nodup := by
  decide

/-! ## Claim C10 -/

theorem snipRun_fst (evs : List MEvent) : ∀ st : SnipState, (snipRun st evs).1 = evs := by
  induction evs with
  | nil => intro st; rfl
  | cons e rest ih =>
      intro st
      unfold snipRun
      by_cases hd : st.done = true
      · simp [hd, ih]
      · simp [hd, ih]

/-- C10: the excerpt stage's remap is the identity on the event stream — for
every starting state (in particular the one `Snippet::remap` builds) the
forwarded sequence equals the input sequence — so any consumer of its output
sees exactly what it would have seen without the stage. -/
theorem c10_snippet_remap_identity :
    (∀ (st : SnipState) (evs : List MEvent), (snipRun st evs).1 = evs) ∧
    (∀ (minLength : Nat) (γ : Type) (consume : List MEvent → γ) (evs : List MEvent),
        consume (snipRun (snippetRemapInit minLength) evs).1 = consume evs) := by
  refine ⟨fun st evs => snipRun_fst evs st, fun minLength γ consume evs => ?_⟩
  rw [snipRun_fst]

/-! ## Claim C5 -/

theorem race_invariant (key : String) (producer : Nat → Nat) (P : RaceState → Prop)
    (hstep : ∀ s i, P s → P (raceStep key producer s i)) :
    ∀ (sched : List Nat) (s : RaceState), P s → P (sched.foldl (raceStep key producer) s)
  | [], _, h => h
  | i :: sched, s, h =>
      race_invariant key producer P hstep sched _ (hstep s i h)

theorem race_present_key (key : String) (producer : Nat → Nat) (m0 : MetaMap) (v : Nat)
    (hv : getRawM m0 key = some v) (M : Nat) (sched : List Nat) :
    (raceRun key producer m0 M sched).map = m0 ∧
    ∀ st ∈ (raceRun key producer m0 M sched).callers,
      st = .start ∨ st = .done v false := by
  have h := race_invariant key producer
    (fun s => s.map = m0 ∧ ∀ st ∈ s.callers, st = .start ∨ st = .done v false)
    ?_ sched ⟨m0, List.replicate M .start⟩
    ⟨rfl, fun st hst => Or.inl (List.eq_of_mem_replicate hst)⟩
  · exact h
  · rintro s i ⟨hm, hc⟩
    cases hg : s.callers[i]? with
    | none => simp only [raceStep, hg]; exact ⟨hm, hc⟩
    | some st =>
        cases st with
        | start =>
            simp only [raceStep, hg, hm, hv]
            refine ⟨by simp [hm], fun st' hst' => ?_⟩
            rcases List.mem_or_eq_of_mem_set hst' with h' | h'
            · exact hc st' h'
            · exact Or.inr h'
        | checked =>
            rcases hc _ (List.getElem?_mem hg) with h' | h' <;> cases h'
        | done r b => simp only [raceStep, hg]; exact ⟨hm, hc⟩

theorem race_absent_key (key : String) (producer : Nat → Nat) (M : Nat) (sched : List Nat) :
    (raceRun key producer [] M sched).map = [] ∨
    ∃ j, (raceRun key producer [] M sched).callers[j]? = some (.done (producer j) true) ∧
      getRawM (raceRun key producer [] M sched).map key = some (producer j) := by
  have inv := race_invariant key producer
    (fun s => s.map = [] ∨
      ∃ j, s.callers[j]? = some (.done (producer j) true) ∧ s.map = [(key, producer j)])
    ?_ sched ⟨[], List.replicate M .start⟩ (Or.inl rfl)
  · rcases inv with h | ⟨j, hj, hm⟩
    · exact Or.inl h
    · refine Or.inr ⟨j, hj, ?_⟩
      rw [show (raceRun key producer [] M sched).map =
        (sched.foldl (raceStep key producer) ⟨[], List.replicate M .start⟩).map from rfl, hm]
      simp [getRawM]
  · rintro s i (hm | ⟨j, hj, hm⟩)
    · cases hg : s.callers[i]? with
      | none => simp only [raceStep, hg]; exact Or.inl hm
      | some st =>
          cases st with
          | start =>
              simp only [raceStep, hg, hm]
              simp only [getRawM]
              exact Or.inl (by simp [hm])
          | checked =>
              simp only [raceStep, hg, hm]
              refine Or.inr ⟨i, ?_, ?_⟩
              · have hi : i < s.callers.length :=
                  (List.getElem?_eq_some.mp hg).choose
                simp [List.getElem?_set_self', List.getElem?_eq_getElem hi]
              · simp [insertRawM]
          | done r b => simp only [raceStep, hg]; exact Or.inl hm
    · cases hg : s.callers[i]? with
      | none => simp only [raceStep, hg]; exact Or.inr ⟨j, hj, hm⟩
      | some st =>
          cases st with
          | start =>
              have hij : i ≠ j := by
                intro h
                rw [h, hj] at hg
                simp at hg
              simp only [raceStep, hg, hm]
              have hlook : getRawM [(key, producer j)] key = some (producer j) := by
                simp [getRawM]
              simp only [hlook]
              exact Or.inr ⟨j, by rw [List.getElem?_set_ne hij]; exact hj, by simp [hm]⟩
          | checked =>
              simp only [raceStep, hg, hm]
              refine Or.inr ⟨i, ?_, ?_⟩
              · have hi : i < s.callers.length :=
                  (List.getElem?_eq_some.mp hg).choose
                simp [List.getElem?_set_self', List.getElem?_eq_getElem hi]
              · simp [insertRawM]
          | done r b => simp only [raceStep, hg]; exact Or.inr ⟨j, hj, hm⟩

/-- C5 (amended): with `dashmap` making the individual `get_raw` check and
`insert_raw` write atomic but nothing serialising the pair, for every
interleaving of M racing `get_or_insert_raw_with(k, f_i)` calls on an absent
key, at most one inserted value survives — some invoked caller's produced
value is the stored value, and every subsequent `get_raw(k)` observes it — and
when the key is already present at the start no producer ever runs and every
finished caller returns that present value; however (see the counterexample) a
racing caller may return its own value even though a later racing insert
overwrote it, so not every caller observes the winner. -/
theorem c5_get_or_insert_race :
    (∀ (key : String) (producer : Nat → Nat) (m0 : MetaMap) (v : Nat),
        getRawM m0 key = some v → ∀ (M : Nat) (sched : List Nat),
          (raceRun key producer m0 M sched).map = m0 ∧
          ∀ st ∈ (raceRun key producer m0 M sched).callers,
            st = .start ∨ st = .done v false) ∧
    (∀ (key : String) (producer : Nat → Nat) (M : Nat) (sched : List Nat),
        (raceRun key producer [] M sched).map = [] ∨
        ∃ j, (raceRun key producer [] M sched).callers[j]? =
              some (.done (producer j) true) ∧
          getRawM (raceRun key producer [] M sched).map key = some (producer j)) :=
  ⟨fun key producer m0 v hv M sched => race_present_key key producer m0 v hv M sched,
   fun key producer M sched => race_absent_key key producer M sched⟩

/-- C5 witness: a one-caller run on a present key returns the present value
without invoking the producer. -/
theorem c5_get_or_insert_race_witness :
    getRawM [(("k"), 7)] ("k") = some 7 ∧
    (raceRun ("k") (fun i => i + 5) [(("k"), 7)] 1 [0]).map = [(("k"), 7)] :=
  ⟨by decide,
   (c5_get_or_insert_race.1 ("k") (fun i => i + 5) [(("k"), 7)] 7 (by decide) 1 [0]).1⟩

/-- C5 counterexample: the claim says every racing caller's return value
observes the single winning value.  Under the schedule check₀, check₁,
insert₀, insert₁ (key absent, producers `i + 1`), caller 0 returns `1` while
the surviving value — the one every subsequent `get_raw` observes — is `2`. -/
theorem c5_counterexample :
    (raceRun ("k") (fun i => i + 1) [] 2 [0, 1, 0, 1]).callers[0]? =
      some (.done 1 true) ∧
    (raceRun ("k") (fun i => i + 1) [] 2 [0, 1, 0, 1]).callers[1]? =
      some (.done 2 true) ∧
    getRawM (raceRun ("k") (fun i => i + 1) [] 2 [0, 1, 0, 1]).map ("k") = some 2 ∧
    (1 : Nat) ≠ 2 := by
  decide

/-! ## Claim C3 -/

/-- C3: on a content root holding exactly `content/index.md`,
`content/post.md` and `content/post/extra.toml`, the builder produces one
collection, rooted at `content` (handle 0), with index item
`content/index.md` (handle 1), direct-item list exactly `content/post.md`
(handle 2) and one data key — the directory `content/post` (handle 3) —
holding exactly `content/post/extra.toml` (handle 4); and in general the
builder's test `entry.depth - root.depth ≤ 1` classifies a file owned by a
strictly shallower collection root as a direct item exactly when its depth is
one more than the root's (otherwise `build_items` files it as a datum keyed by
its immediate parent). -/
theorem c3_classification :
    discover c3Tree 0 none = .ok c3ExpectedSite ∧
    (∀ rootDepth entryDepth : Nat, rootDepth < entryDepth →
      (classifyDirect rootDepth entryDepth = true ↔ entryDepth = rootDepth + 1)) := by
  constructor
  · rfl
  · intro rd fd h
    simp only [classifyDirect, decide_eq_true_eq]
    omega

/-- C3 witness: the classification test at concrete depths 0 and 1. -/
theorem c3_classification_witness :
    (0 : Nat) < 1 ∧ (classifyDirect 0 1 = true ↔ (1 : Nat) = 0 + 1) :=
  ⟨by decide, c3_classification.2 0 1 (by decide)⟩

/-! ## Claim C4 -/

theorem colGet_colSet_self (cs : List (Nat × MCollection)) (k : Nat) (c : MCollection) :
    colGet (colSet cs k c) k = some c := by
  induction cs with
  | nil => simp [colSet, colGet]
  | cons kv rest ih =>
      by_cases h : kv.1 = k
      · simp [colSet, colGet, h]
      · simp [colSet, colGet, h, ih]

theorem colGet_colSet_ne (cs : List (Nat × MCollection)) (k k' : Nat) (c : MCollection)
    (h : k' ≠ k) : colGet (colSet cs k c) k' = colGet cs k' := by
  induction cs with
  | nil => simp [colSet, colGet, Ne.symm h]
  | cons kv rest ih =>
      by_cases hk : kv.1 = k
      · simp [colSet, colGet, hk, Ne.symm h]
      · by_cases hk' : kv.1 = k'
        · simp [colSet, colGet, hk, hk', h]
        · simp [colSet, colGet, hk, hk', ih]

theorem colGet_append_some (cs l : List (Nat × MCollection)) (k : Nat) (c : MCollection)
    (h : colGet cs k = some c) : colGet (cs ++ l) k = some c := by
  induction cs with
  | nil => simp [colGet] at h
  | cons kv rest ih =>
      by_cases hk : kv.1 = k
      · simp [colGet, hk] at h ⊢; exact h
      · simp [colGet, hk] at h ⊢; exact ih h

theorem colGet_append_single_ne (cs : List (Nat × MCollection)) (k k' : Nat)
    (c : MCollection) (h : k' ≠ k) : colGet (cs ++ [(k, c)]) k' = colGet cs k' := by
  induction cs with
  | nil => simp [colGet, Ne.symm h]
  | cons kv rest ih =>
      by_cases hk : kv.1 = k'
      · simp [colGet, hk]
      · simp [colGet, hk, ih]

theorem getOrInsert_cases (s : MSite) (name : String) (root : Nat) :
    (∃ c, colGet s.collections root = some c ∧ getOrInsertCollection s name root = (s, c)) ∨
    (colGet s.collections root = none ∧
      getOrInsertCollection s name root =
        ({ s with collections := s.collections ++ [(root, ⟨name, root, none, [], []⟩)] },
         ⟨name, root, none, [], []⟩)) := by
  unfold getOrInsertCollection
  cases h : colGet s.collections root with
  | some c => exact Or.inl ⟨c, rfl, rfl⟩
  | none => exact Or.inr ⟨rfl, rfl⟩

theorem recordIndex_get_ne (s : MSite) (nm : String) (pd fid pg : Nat) (h : pg ≠ pd) :
    colGet (recordIndex s nm pd fid).collections pg = colGet s.collections pg := by
  unfold recordIndex
  rcases getOrInsert_cases s nm pd with ⟨c0, hc0, hr⟩ | ⟨hc0, hr⟩ <;> rw [hr]
  · exact colGet_colSet_ne _ _ _ _ h
  · rw [colGet_colSet_ne _ _ _ _ h]
    exact colGet_append_single_ne _ _ _ _ h

theorem recordIndex_get_self (s : MSite) (nm : String) (pd fid : Nat) :
    ∃ c, colGet (recordIndex s nm pd fid).collections pd = some c ∧ c.index = some fid := by
  unfold recordIndex
  rcases getOrInsert_cases s nm pd with ⟨c0, hc0, hr⟩ | ⟨hc0, hr⟩ <;> rw [hr] <;>
    exact ⟨_, colGet_colSet_self .., rfl⟩

theorem colsStep_mono (s : MSite) (nm : String) (pd fid pg : Nat) (c : MCollection)
    (hg : colGet s.collections pg = some c) :
    ∃ c', colGet (recordIndex s nm pd fid).collections pg = some c' ∧
      (c.index.isSome = true → c'.index.isSome = true) := by
  by_cases hpg : pg = pd
  · subst hpg
    obtain ⟨c', hc', hidx⟩ := recordIndex_get_self s nm pg fid
    exact ⟨c', hc', fun _ => by rw [hidx]; rfl⟩
  · exact ⟨c, by rw [recordIndex_get_ne s nm pd fid pg hpg]; exact hg, fun h => h⟩

theorem buildColls_error_of_seen (t : FTree) (cr : Nat) :
    ∀ (files : List FEntry) (s : MSite),
      (∃ g ∈ files, ∃ pd, g.parent = some pd ∧
        ∃ c, colGet s.collections pd = some c ∧ c.index.isSome = true) →
      ∃ e, buildCollectionsAux t cr files s = .error e := by
  intro files
  induction files with
  | nil => rintro s ⟨f, hf, _⟩; cases hf
  | cons f fs ih =>
      rintro s ⟨g, hg, pdg, hpg, cg, hcg, hidx⟩
      cases hfp : f.parent with
      | none => exact ⟨builderPanic, by simp [buildCollectionsAux, hfp]⟩
      | some pd =>
          cases hgd : t.entries[pd]? with
          | none => exact ⟨builderPanic, by simp [buildCollectionsAux, hfp, hgd]⟩
          | some groupDir =>
              cases hidxf : (getOrInsertCollection s (relName t cr groupDir) pd).2.index with
              | some ex =>
                  exact ⟨dupIndexErr t groupDir ex f,
                    by simp [buildCollectionsAux, hfp, hgd, hidxf]⟩
              | none =>
                  have hgfs : g ∈ fs := by
                    rcases List.mem_cons.mp hg with hgf | hgfs
                    · exfalso
                      subst hgf
                      have hpd : pdg = pd := by
                        rw [hfp] at hpg
                        exact (Option.some.inj hpg).symm
                      rw [hpd] at hcg
                      rcases getOrInsert_cases s (relName t cr groupDir) pd with
                        ⟨c0, hc0, hr⟩ | ⟨hc0, hr⟩
                      · rw [hr] at hidxf
                        rw [hcg] at hc0
                        have hcc : cg = c0 := Option.some.inj hc0
                        rw [← hcc] at hidxf
                        rw [hidxf] at hidx
                        simp at hidx
                      · rw [hcg] at hc0
                        cases hc0
                    · exact hgfs
                  obtain ⟨c', hc', hmono⟩ :=
                    colsStep_mono s (relName t cr groupDir) pd f.id pdg cg hcg
                  obtain ⟨e, he⟩ := ih (recordIndex s (relName t cr groupDir) pd f.id)
                    ⟨g, hgfs, pdg, hpg, c', hc', hmono hidx⟩
                  refine ⟨e, ?_⟩
                  simp only [buildCollectionsAux, hfp, hgd, hidxf]
                  exact he

theorem buildColls_error_of_dup (t : FTree) (cr : Nat) :
    ∀ (files : List FEntry) (s : MSite),
      ¬ (files.map FEntry.parent).Nodup →
      ∃ e, buildCollectionsAux t cr files s = .error e := by
  intro files
  induction files with
  | nil => intro s h; exact absurd List.nodup_nil h
  | cons f fs ih =>
      intro s hdup
      cases hfp : f.parent with
      | none => exact ⟨builderPanic, by simp [buildCollectionsAux, hfp]⟩
      | some pd =>
          cases hgd : t.entries[pd]? with
          | none => exact ⟨builderPanic, by simp [buildCollectionsAux, hfp, hgd]⟩
          | some groupDir =>
              cases hidxf : (getOrInsertCollection s (relName t cr groupDir) pd).2.index with
              | some ex =>
                  exact ⟨dupIndexErr t groupDir ex f,
                    by simp [buildCollectionsAux, hfp, hgd, hidxf]⟩
              | none =>
                  rw [List.map_cons, List.nodup_cons] at hdup
                  rcases not_and_or.mp hdup with hmem | hnd
                  · rw [not_not, hfp] at hmem
                    obtain ⟨g, hgfs, hgp⟩ := List.mem_map.mp hmem
                    obtain ⟨cI, hcI, hcIdx⟩ :=
                      recordIndex_get_self s (relName t cr groupDir) pd f.id
                    obtain ⟨e, he⟩ := buildColls_error_of_seen t cr fs
                      (recordIndex s (relName t cr groupDir) pd f.id)
                      ⟨g, hgfs, pd, hgp, cI, hcI, by rw [hcIdx]; rfl⟩
                    refine ⟨e, ?_⟩
                    simp only [buildCollectionsAux, hfp, hgd, hidxf]
                    exact he
                  · obtain ⟨e, he⟩ := ih (recordIndex s (relName t cr groupDir) pd f.id) hnd
                    refine ⟨e, ?_⟩
                    simp only [buildCollectionsAux, hfp, hgd, hidxf]
                    exact he

theorem buildColls_ok_of_nodup (t : FTree) (cr : Nat) :
    ∀ (files : List FEntry) (s : MSite),
      (∀ f ∈ files, ∃ pd gd, f.parent = some pd ∧ t.entries[pd]? = some gd) →
      (∀ f ∈ files, ∀ pd, f.parent = some pd →
          ∀ c, colGet s.collections pd = some c → c.index = none) →
      (files.map FEntry.parent).Nodup →
      ∃ s', buildCollectionsAux t cr files s = .ok s' := by
  intro files
  induction files with
  | nil => intro s _ _ _; exact ⟨s, rfl⟩
  | cons f fs ih =>
      intro s hp h2 hnd
      obtain ⟨pd, gd, hfp, hgd⟩ := hp f (List.mem_cons_self f fs)
      rw [List.map_cons, List.nodup_cons] at hnd
      have hidxf : (getOrInsertCollection s (relName t cr gd) pd).2.index = none := by
        rcases getOrInsert_cases s (relName t cr gd) pd with ⟨c, hc, hr⟩ | ⟨hc, hr⟩
        · rw [hr]
          exact h2 f (List.mem_cons_self f fs) pd hfp c hc
        · rw [hr]
      have h2' : ∀ g ∈ fs, ∀ pg, g.parent = some pg →
          ∀ c', colGet (recordIndex s (relName t cr gd) pd f.id).collections pg = some c' →
            c'.index = none := by
        intro g hg pg hgp c' hc'
        have hne : pg ≠ pd := by
          intro h
          subst h
          refine hnd.1 ?_
          rw [hfp, ← hgp]
          exact List.mem_map_of_mem _ hg
        rw [recordIndex_get_ne _ _ _ _ _ hne] at hc'
        exact h2 g (List.mem_cons_of_mem f hg) pg hgp c' hc'
      obtain ⟨s', hs'⟩ := ih (recordIndex s (relName t cr gd) pd f.id)
        (fun g hg => hp g (List.mem_cons_of_mem f hg))
        h2' hnd.2
      refine ⟨s', ?_⟩
      simp only [buildCollectionsAux, hfp, hgd, hidxf]
      exact hs'

/-- C4: with both `content/index.md` and `content/index.markdown` in the same
directory, discovery fails and the error's context parameters name both index
paths (first conjunct, fully evaluated); every `discover` failure comes from
`build_collections` (second conjunct: `build_site_items` and `build_items`
are total); and over any index-file list on a tree whose files have live
parent directories, starting from a site with no indexed collection,
`build_collections` fails exactly when two index files share a parent
directory (third conjunct). -/
theorem c4_duplicate_index :
    (discover c4Tree 0 none =
      .error (.mk ("found multiple index files for a single collection")
        [(none, ("faulting collection")), (none, ("content")),
         (some ("first index"), ("content/index.md")),
         (some ("second index"), ("content/index.markdown"))] none)) ∧
    (∀ (t : FTree) (cr : Nat) (ar : Option Nat) (e : MError),
        discover t cr ar = .error e →
        buildCollections t cr (buildSiteItems t ar ⟨[], []⟩) = .error e) ∧
    (∀ (t : FTree) (cr : Nat) (files : List FEntry) (s : MSite),
        (∀ f ∈ files, ∃ pd gd, f.parent = some pd ∧ t.entries[pd]? = some gd) →
        (∀ f ∈ files, ∀ pd, f.parent = some pd →
            ∀ c, colGet s.collections pd = some c → c.index = none) →
        ((∃ e, buildCollectionsAux t cr files s = .error e) ↔
          ¬ (files.map FEntry.parent).Nodup)) := by
  refine ⟨rfl, ?_, ?_⟩
  · intro t cr ar e he
    have hd : discover t cr ar =
        Except.bind (buildCollections t cr (buildSiteItems t ar ⟨[], []⟩))
          (fun s1 => Except.ok (buildItems t cr s1)) := rfl
    cases h : buildCollections t cr (buildSiteItems t ar ⟨[], []⟩) with
    | error e' =>
        rw [hd, h] at he
        have he' : (Except.error e' : Except MError MSite) = Except.error e := he
        cases he'
        rfl
    | ok s1 =>
        rw [hd, h] at he
        have he' : (Except.ok (buildItems t cr s1) : Except MError MSite) =
            Except.error e := he
        cases he'
  · intro t cr files s hp h2
    constructor
    · rintro ⟨e, he⟩ hnd
      obtain ⟨s', hs'⟩ := buildColls_ok_of_nodup t cr files s hp h2 hnd
      rw [hs'] at he
      cases he
    · exact fun hnd => buildColls_error_of_dup t cr files s hnd

/-- C4 witness: the iff instantiated at the two `index` files of `c4Tree` and
the empty site. -/
theorem c4_duplicate_index_witness :
    (∃ e, buildCollectionsAux c4Tree 0
        [⟨1, [("content"), ("index.md")], ("index.md"), true, some 0, [], 1⟩,
         ⟨2, [("content"), ("index.markdown")], ("index.markdown"), true, some 0, [], 1⟩]
        ⟨[], []⟩ = .error e) ↔
      ¬ (([⟨1, [("content"), ("index.md")], ("index.md"), true, some 0, [], 1⟩,
           ⟨2, [("content"), ("index.markdown")], ("index.markdown"), true, some 0, [], 1⟩] :
          List FEntry).map FEntry.parent).Nodup :=
  c4_duplicate_index.2.2 c4Tree 0 _ ⟨[], []⟩
    (by
      intro f hf
      rcases List.mem_cons.mp hf with h1 | h1
      · exact ⟨0, ⟨0, [("content")], ("content"), false, none, [1, 2], 0⟩, by rw [h1], rfl⟩
      · rcases List.mem_cons.mp h1 with h2 | h2
        · exact ⟨0, ⟨0, [("content")], ("content"), false, none, [1, 2], 0⟩, by rw [h2], rfl⟩
        · cases h2)
    (by intro f hf pd hpd c hc; simp [colGet] at hc)

/-! ## Claims C6 and C7: arena invariants of `FsTree::build_with` -/

theorem pmapGet_pmapInsert (m : List (List String × Nat)) (k k' : List String) (v : Nat) :
    pmapGet (pmapInsert m k v) k' = if k' = k then some v else pmapGet m k' := by
  induction m with
  | nil =>
      by_cases h : k' = k
      · simp [pmapInsert, pmapGet, h]
      · have h2 : ¬ k = k' := fun hh => h hh.symm
        simp [pmapInsert, pmapGet, h, h2]
  | cons kv rest ih =>
      simp only [pmapInsert]
      by_cases hk : kv.1 = k
      · rw [if_pos hk]
        by_cases h : k' = k
        · subst h
          simp [pmapGet, hk]
        · have h2 : ¬ k = k' := fun hh => h hh.symm
          have hkv : ¬ kv.1 = k' := by rw [hk]; exact h2
          simp [pmapGet, h, h2, hkv]
      · rw [if_neg hk]
        by_cases h : k' = k
        · subst h
          simp [pmapGet, hk, ih]
        · simp [pmapGet, hk, h, ih]

theorem append_single_getElem? (es : List FEntry) (e : FEntry) (i : Nat) :
    (es ++ [e])[i]? =
      if i < es.length then es[i]? else if i = es.length then some e else none := by
  by_cases h1 : i < es.length
  · rw [List.getElem?_append_left h1, if_pos h1]
  · by_cases h2 : i = es.length
    · subst h2
      rw [if_neg h1, if_pos rfl]
      exact List.getElem?_concat_length es e
    · rw [if_neg h1, if_neg h2]
      apply List.getElem?_eq_none
      rw [List.length_append]
      simp only [List.length_singleton]
      omega

theorem pushChild_length (es : List FEntry) (p c : Nat) :
    (pushChild es p c).length = es.length := by
  unfold pushChild
  cases h : es[p]? with
  | none => rfl
  | some pe => exact List.length_set es p _

theorem pushChild_core (es : List FEntry) (p c i : Nat) :
    ((pushChild es p c)[i]?).map FEntry.core = (es[i]?).map FEntry.core := by
  unfold pushChild
  cases h : es[p]? with
  | none => rfl
  | some pe =>
      by_cases hip : i = p
      · subst hip
        rw [List.getElem?_set_self' .., h]
        rfl
      · rw [List.getElem?_set_ne (Ne.symm hip)]

theorem core_some (l : List FEntry) (i : Nat) (x : Nat × List String × Option Nat × Nat × String × Bool)
    (h : (l[i]?).map FEntry.core = some x) : ∃ e0, l[i]? = some e0 ∧ e0.core = x := by
  cases hl : l[i]? with
  | none => rw [hl] at h; cases h
  | some e0 =>
      rw [hl] at h
      exact ⟨e0, rfl, Option.some.inj h⟩

theorem insertW_core (t : FTree) (w : WEntry) (i : Nat) :
    (((t.insertW w).1).entries[i]?).map FEntry.core =
      if i < t.entries.length then (t.entries[i]?).map FEntry.core
      else if i = t.entries.length then
        some (t.entries.length, w.path, pmapGet t.pmap w.path.dropLast, w.depth,
          w.fileName, w.isFile)
      else none := by
  show ((match pmapGet t.pmap w.path.dropLast with
      | some p => pushChild t.entries p t.entries.length
      | none => t.entries) ++
        [{ id := t.entries.length, path := w.path, fileName := w.fileName,
           isFile := w.isFile, parent := pmapGet t.pmap w.path.dropLast,
           children := [], depth := w.depth }])[i]?.map FEntry.core = _
  cases hp : pmapGet t.pmap w.path.dropLast with
  | none =>
      rw [append_single_getElem?]
      by_cases h1 : i < t.entries.length
      · rw [if_pos h1, if_pos h1]
      · by_cases h2 : i = t.entries.length
        · rw [if_neg h1, if_neg h1, if_pos h2, if_pos h2]
          rfl
        · rw [if_neg h1, if_neg h1, if_neg h2, if_neg h2]
          rfl
  | some p =>
      rw [append_single_getElem?, pushChild_length]
      by_cases h1 : i < t.entries.length
      · rw [if_pos h1, if_pos h1]
        exact pushChild_core t.entries p t.entries.length i
      · by_cases h2 : i = t.entries.length
        · rw [if_neg h1, if_neg h1, if_pos h2, if_pos h2]
          rfl
        · rw [if_neg h1, if_neg h1, if_neg h2, if_neg h2]
          rfl

theorem insertW_pmap (t : FTree) (w : WEntry) :
    ((t.insertW w).1).pmap = pmapInsert t.pmap w.path t.entries.length := rfl

theorem insertW_length (t : FTree) (w : WEntry) :
    ((t.insertW w).1).entries.length = t.entries.length + 1 := by
  show ((match pmapGet t.pmap w.path.dropLast with
      | some p => pushChild t.entries p t.entries.length
      | none => t.entries) ++ [_]).length = _
  cases pmapGet t.pmap w.path.dropLast <;>
    simp [List.length_append, pushChild_length]

theorem getElem?_lt_length {l : List FEntry} {i : Nat} {e : FEntry}
    (h : l[i]? = some e) : i < l.length :=
  (List.getElem?_eq_some.mp h).choose

theorem insertW_inv (base : Nat) (t : FTree) (w : WEntry)
    (ht : TreeInv base t) (hw : w.depth + base = w.path.length ∧ w.path ≠ []) :
    TreeInv base (t.insertW w).1 := by
  have hcore := insertW_core t w
  have hview : ∀ (i : Nat) (e : FEntry), ((t.insertW w).1).entries[i]? = some e →
      (i < t.entries.length ∧ ∃ e0, t.entries[i]? = some e0 ∧ e0.core = e.core) ∨
      (i = t.entries.length ∧
        e.core = (t.entries.length, w.path, pmapGet t.pmap w.path.dropLast, w.depth,
          w.fileName, w.isFile)) := by
    intro i e he
    have h := hcore i
    rw [he] at h
    by_cases h1 : i < t.entries.length
    · rw [if_pos h1] at h
      obtain ⟨e0, he0, hc⟩ := core_some t.entries i _ h.symm
      exact Or.inl ⟨h1, e0, he0, hc⟩
    · by_cases h2 : i = t.entries.length
      · rw [if_neg h1, if_pos h2] at h
        exact Or.inr ⟨h2, Option.some.inj h⟩
      · rw [if_neg h1, if_neg h2] at h
        cases h
  have hcore_id : ∀ (e : FEntry), e.core.1 = e.id := fun _ => rfl
  refine ⟨?_, ?_, ?_, ?_⟩
  · -- idx
    intro i e he
    rcases hview i e he with ⟨h1, e0, he0, hc⟩ | ⟨h2, hc⟩
    · have : e.core.1 = e0.core.1 := by rw [hc]
      simp only [FEntry.core] at this
      rw [this]
      exact ht.idx i e0 he0
    · have : e.core.1 = t.entries.length := by rw [hc]
      simp only [FEntry.core] at this
      rw [this, h2]
  · -- pmapEntry
    intro k v hk
    rw [insertW_pmap, pmapGet_pmapInsert] at hk
    by_cases hkw : k = w.path
    · rw [if_pos hkw] at hk
      have hv : v = t.entries.length := (Option.some.inj hk).symm
      have hlen := insertW_length t w
      have hvlt : v < ((t.insertW w).1).entries.length := by omega
      cases hve : ((t.insertW w).1).entries[v]? with
      | none =>
          exact absurd hve (by
            intro hn
            have := List.getElem?_eq_none_iff.mp hn
            omega)
      | some e =>
          refine ⟨e, rfl, ?_⟩
          rcases hview v e hve with ⟨h1, _, _, _⟩ | ⟨_, hc⟩
          · omega
          · have : e.core.2.1 = w.path := by rw [hc]
            simp only [FEntry.core] at this
            rw [this, hkw]
    · rw [if_neg hkw] at hk
      obtain ⟨e0, he0, hp0⟩ := ht.pmapEntry k v hk
      have hvlt : v < t.entries.length := getElem?_lt_length he0
      cases hve : ((t.insertW w).1).entries[v]? with
      | none =>
          exact absurd hve (by
            intro hn
            have := List.getElem?_eq_none_iff.mp hn
            rw [insertW_length] at this
            omega)
      | some e =>
          refine ⟨e, rfl, ?_⟩
          rcases hview v e hve with ⟨h1, e1, he1, hc⟩ | ⟨h2, _⟩
          · rw [he0] at he1
            cases he1
            have hpe : e.core.2.1 = e0.core.2.1 := by rw [hc]
            simp only [FEntry.core] at hpe
            rw [hpe]
            exact hp0
          · omega
  · -- parentInv
    intro i e he p hp
    rcases hview i e he with ⟨h1, e0, he0, hc⟩ | ⟨h2, hc⟩
    · have hpar : e.parent = e0.parent := by
        have : e.core.2.2.1 = e0.core.2.2.1 := by rw [hc]
        simpa only [FEntry.core] using this
      have hpath : e.path = e0.path := by
        have : e.core.2.1 = e0.core.2.1 := by rw [hc]
        simpa only [FEntry.core] using this
      rw [hpar] at hp
      obtain ⟨hplt, pe, hpe, hpp⟩ := ht.parentInv i e0 he0 p hp
      have hplen : p < t.entries.length := getElem?_lt_length hpe
      cases hpve : ((t.insertW w).1).entries[p]? with
      | none =>
          exact absurd hpve (by
            intro hn
            have := List.getElem?_eq_none_iff.mp hn
            rw [insertW_length] at this
            omega)
      | some pe' =>
          refine ⟨hplt, pe', rfl, ?_⟩
          rcases hview p pe' hpve with ⟨_, pe0, hpe0, hcp⟩ | ⟨hq, _⟩
          · rw [hpe] at hpe0
            cases hpe0
            have hq2 : pe'.path = pe.path := by
              have hq3 : pe'.core.2.1 = pe.core.2.1 := by rw [hcp]
              simpa only [FEntry.core] using hq3
            rw [hq2, hpath]
            exact hpp
          · omega
    · -- the fresh entry: its parent comes from the path map at `parent_path`
      have hpar : e.parent = pmapGet t.pmap w.path.dropLast := by
        have : e.core.2.2.1 = pmapGet t.pmap w.path.dropLast := by rw [hc]
        simpa only [FEntry.core] using this
      have hpath : e.path = w.path := by
        have : e.core.2.1 = w.path := by rw [hc]
        simpa only [FEntry.core] using this
      rw [hpar] at hp
      obtain ⟨pe, hpe, hpp⟩ := ht.pmapEntry _ p hp
      have hplen : p < t.entries.length := getElem?_lt_length hpe
      cases hpve : ((t.insertW w).1).entries[p]? with
      | none =>
          exact absurd hpve (by
            intro hn
            have := List.getElem?_eq_none_iff.mp hn
            rw [insertW_length] at this
            omega)
      | some pe' =>
          refine ⟨by omega, pe', rfl, ?_⟩
          rcases hview p pe' hpve with ⟨_, pe0, hpe0, hcp⟩ | ⟨hq, _⟩
          · rw [hpe] at hpe0
            cases hpe0
            have hq2 : pe'.path = pe.path := by
              have hq3 : pe'.core.2.1 = pe.core.2.1 := by rw [hcp]
              simpa only [FEntry.core] using hq3
            rw [hq2, hpath]
            exact hpp
          · omega
  · -- depthLen
    intro i e he
    rcases hview i e he with ⟨h1, e0, he0, hc⟩ | ⟨h2, hc⟩
    · have hdep : e.depth = e0.depth := by
        have : e.core.2.2.2.1 = e0.core.2.2.2.1 := by rw [hc]
        simpa only [FEntry.core] using this
      have hpath : e.path = e0.path := by
        have : e.core.2.1 = e0.core.2.1 := by rw [hc]
        simpa only [FEntry.core] using this
      rw [hdep, hpath]
      exact ht.depthLen i e0 he0
    · have hdep : e.depth = w.depth := by
        have : e.core.2.2.2.1 = w.depth := by rw [hc]
        simpa only [FEntry.core] using this
      have hpath : e.path = w.path := by
        have : e.core.2.1 = w.path := by rw [hc]
        simpa only [FEntry.core] using this
      rw [hdep, hpath]
      exact hw

theorem emptyT_inv (base : Nat) : TreeInv base FTree.emptyT := by
  refine ⟨?_, ?_, ?_, ?_⟩
  · intro i e h
    simp [FTree.emptyT] at h
  · intro k v h
    simp [FTree.emptyT, pmapGet] at h
  · intro i e h
    simp [FTree.emptyT] at h
  · intro i e h
    simp [FTree.emptyT] at h

theorem buildWithAux_inv (cb : FTree → Nat → Except MError Unit) (base : Nat) :
    ∀ (ws : List WEntry) (t0 t : FTree),
      buildWithAux cb ws t0 = .ok t → TreeInv base t0 →
      (∀ w ∈ ws, w.depth + base = w.path.length ∧ w.path ≠ []) →
      TreeInv base t
  | [], t0, t, h, h0, _ => by
      cases h
      exact h0
  | w :: ws, t0, t, h, h0, hs => by
      simp only [buildWithAux] at h
      cases hcb : cb (t0.insertW w).1 (t0.insertW w).2 with
      | error e => rw [hcb] at h; cases h
      | ok _ =>
          rw [hcb] at h
          exact buildWithAux_inv cb base ws _ t h
            (insertW_inv base t0 w h0 (hs w (List.mem_cons_self _ _)))
            (fun w' hw' => hs w' (List.mem_cons_of_mem _ hw'))

theorem buildWith_ok_aux (root : String) (ws : List WEntry)
    (cb : FTree → Nat → Except MError Unit) (t : FTree)
    (hb : buildWith root ws cb = .ok t) :
    buildWithAux cb ws FTree.emptyT = .ok t := by
  have hd : buildWith root ws cb =
      Except.bind (buildWithAux cb ws FTree.emptyT)
        (fun t0 => if t0.entries.length = 0 then
            .error (.mk ("file system tree discovery yielded zero files")
              [(some ("search root"), root)] none)
          else .ok t0) := rfl
  cases h : buildWithAux cb ws FTree.emptyT with
  | error e =>
      rw [hd, h] at hb
      have hb' : (Except.error e : Except MError FTree) = .ok t := hb
      cases hb'
  | ok t0 =>
      rw [hd, h] at hb
      have hb2 : (if t0.entries.length = 0 then
          (Except.error (.mk ("file system tree discovery yielded zero files")
            [(some ("search root"), root)] none) : Except MError FTree)
        else .ok t0) = .ok t := hb
      by_cases hlen : t0.entries.length = 0
      · rw [if_pos hlen] at hb2
        cases hb2
      · rw [if_neg hlen] at hb2
        cases hb2
        rfl

/-- C6: every arena produced by `build`/`build_with` from a depth-consistent
walker stream is well-formed — indexing the table at any valid handle yields
an entry whose own id equals the handle, and every entry with a parent has
`depth = parent depth + 1` with the parent's handle strictly smaller (the
parent was inserted earlier). -/
theorem c6_fstree_invariants (base : Nat) (root : String) (ws : List WEntry)
    (cb : FTree → Nat → Except MError Unit) (t : FTree)
    (hb : buildWith root ws cb = .ok t)
    (hs : ∀ w ∈ ws, w.depth + base = w.path.length ∧ w.path ≠ []) :
    (∀ (i : Nat) (e : FEntry), t.entries[i]? = some e → e.id = i) ∧
    (∀ (i : Nat) (e : FEntry), t.entries[i]? = some e → ∀ p, e.parent = some p →
        p < e.id ∧ ∃ pe, t.entries[p]? = some pe ∧ e.depth = pe.depth + 1) := by
  have inv := buildWithAux_inv cb base ws FTree.emptyT t (buildWith_ok_aux root ws cb t hb)
    (emptyT_inv base) hs
  refine ⟨inv.idx, ?_⟩
  intro i e he p hp
  obtain ⟨hlt, pe, hpe, hpath⟩ := inv.parentInv i e he p hp
  have hid := inv.idx i e he
  obtain ⟨hde, hne⟩ := inv.depthLen i e he
  obtain ⟨hdp, _⟩ := inv.depthLen p pe hpe
  have hdl : pe.path.length = e.path.length - 1 := by
    rw [hpath]
    exact List.length_dropLast _
  have hlen1 : 1 ≤ e.path.length := by
    cases hep : e.path with
    | nil => exact absurd hep hne
    | cons a l => simp
  exact ⟨by omega, pe, hpe, by omega⟩

/-- C6 witness: the invariants on the concrete two-entry build. -/
theorem c6_fstree_invariants_witness :
    (∀ (i : Nat) (e : FEntry), c67Tree.entries[i]? = some e → e.id = i) ∧
    (∀ (i : Nat) (e : FEntry), c67Tree.entries[i]? = some e → ∀ p, e.parent = some p →
        p < e.id ∧ ∃ pe, c67Tree.entries[p]? = some pe ∧ e.depth = pe.depth + 1) :=
  c6_fstree_invariants 1 ("r") c67Stream okCallback c67Tree rfl (by decide)

theorem insertW_complete (t : FTree) (w : WEntry)
    (hc : ∀ (i : Nat) (e : FEntry), t.entries[i]? = some e → pmapGet t.pmap e.path = some i)
    (hfresh : ∀ (i : Nat) (e : FEntry), t.entries[i]? = some e → e.path ≠ w.path) :
    ∀ (i : Nat) (e : FEntry), ((t.insertW w).1).entries[i]? = some e →
      pmapGet ((t.insertW w).1).pmap e.path = some i := by
  intro i e he
  rw [insertW_pmap, pmapGet_pmapInsert]
  have h := insertW_core t w i
  rw [he] at h
  by_cases h1 : i < t.entries.length
  · rw [if_pos h1] at h
    obtain ⟨e0, he0, hco⟩ := core_some t.entries i _ h.symm
    have hpath : e.path = e0.path := by
      have : e.core.2.1 = e0.core.2.1 := by rw [← hco]
      simpa only [FEntry.core] using this
    rw [hpath, if_neg (hfresh i e0 he0)]
    exact hc i e0 he0
  · by_cases h2 : i = t.entries.length
    · rw [if_neg h1, if_pos h2] at h
      have hco := Option.some.inj h
      have hpath : e.path = w.path := by
        have : e.core.2.1 = w.path := by rw [hco]
        simpa only [FEntry.core] using this
      rw [hpath, if_pos rfl, h2]
    · rw [if_neg h1, if_neg h2] at h
      cases h

theorem insertW_paths (t : FTree) (w : WEntry) (i : Nat) (e : FEntry)
    (he : ((t.insertW w).1).entries[i]? = some e) :
    (∃ (j : Nat) (e0 : FEntry), t.entries[j]? = some e0 ∧ e0.path = e.path) ∨
      e.path = w.path := by
  have h := insertW_core t w i
  rw [he] at h
  by_cases h1 : i < t.entries.length
  · rw [if_pos h1] at h
    obtain ⟨e0, he0, hco⟩ := core_some t.entries i _ h.symm
    refine Or.inl ⟨i, e0, he0, ?_⟩
    have : e0.core.2.1 = e.core.2.1 := by rw [hco]
    simpa only [FEntry.core] using this
  · by_cases h2 : i = t.entries.length
    · rw [if_neg h1, if_pos h2] at h
      have hco := Option.some.inj h
      refine Or.inr ?_
      have : e.core.2.1 = w.path := by rw [hco]
      simpa only [FEntry.core] using this
    · rw [if_neg h1, if_neg h2] at h
      cases h

theorem buildWithAux_complete (cb : FTree → Nat → Except MError Unit) :
    ∀ (ws : List WEntry) (t0 t : FTree),
      buildWithAux cb ws t0 = .ok t →
      (∀ (i : Nat) (e : FEntry), t0.entries[i]? = some e → pmapGet t0.pmap e.path = some i) →
      (∀ (i : Nat) (e : FEntry), t0.entries[i]? = some e → e.path ∉ ws.map WEntry.path) →
      (ws.map WEntry.path).Nodup →
      ∀ (i : Nat) (e : FEntry), t.entries[i]? = some e → pmapGet t.pmap e.path = some i
  | [], t0, t, h, h0, _, _ => by
      cases h
      exact h0
  | w :: ws, t0, t, h, h0, hnin, hnd => by
      simp only [buildWithAux] at h
      cases hcb : cb (t0.insertW w).1 (t0.insertW w).2 with
      | error e => rw [hcb] at h; cases h
      | ok _ =>
          rw [hcb] at h
          rw [List.map_cons, List.nodup_cons] at hnd
          refine buildWithAux_complete cb ws _ t h
            (insertW_complete t0 w h0 ?_) ?_ hnd.2
          · intro i e he hew
            apply hnin i e he
            rw [List.map_cons, hew]
            exact List.mem_cons_self _ _
          · intro i e he
            rcases insertW_paths t0 w i e he with ⟨j, e0, he0, hp0⟩ | hp0
            · intro hmem
              apply hnin j e0 he0
              rw [List.map_cons, hp0]
              exact List.mem_cons_of_mem _ hmem
            · rw [hp0]
              exact hnd.1

/-- Path facts along a parent-pointer descent: the ancestor's path is a
component prefix of the descendant's, lengths track depths. -/
theorem desc_path_facts (base : Nat) (t : FTree) (inv : TreeInv base t)
    {R c : Nat} (hd : t.Desc R c) :
    ∀ re ce, t.entries[R]? = some re → t.entries[c]? = some ce →
      re.depth ≤ ce.depth ∧ ce.path.length = re.path.length + (ce.depth - re.depth) ∧
      ce.path.take re.path.length = re.path := by
  induction hd with
  | refl =>
      intro re ce hR hc
      rw [hR] at hc
      cases hc
      exact ⟨le_refl _, by omega, List.take_length _⟩
  | @step p c e hdesc hent hpar ih =>
      intro re ce hR hc
      rw [hent] at hc
      have hec : e = ce := Option.some.inj hc
      subst hec
      obtain ⟨hplt, pe, hpe, hpp⟩ := inv.parentInv c e hent p hpar
      obtain ⟨h1, h2, h3⟩ := ih re pe hR hpe
      obtain ⟨hdc, hnc⟩ := inv.depthLen c e hent
      obtain ⟨hdpe, _⟩ := inv.depthLen p pe hpe
      have hdl : pe.path.length = e.path.length - 1 := by
        rw [hpp]
        exact List.length_dropLast _
      have hlen1 : 1 ≤ e.path.length := by
        cases hep : e.path with
        | nil => exact absurd hep hnc
        | cons a l => simp
      refine ⟨by omega, by omega, ?_⟩
      have hle : re.path.length ≤ e.path.length - 1 := by omega
      calc e.path.take re.path.length
          = (e.path.take (e.path.length - 1)).take re.path.length := by
            rw [List.take_take, Nat.min_eq_left hle]
        _ = pe.path.take re.path.length := by rw [← List.dropLast_eq_take, ← hpp]
        _ = re.path := h3

/-- C7: for every arena built from a depth-consistent, duplicate-path-free
walker stream, every entry reachable from (a descendant of or equal to) an
entry `R` is found again by looking up its path relative to `R` under root
`R`: `tree.get(R, e.path_relative_to(R)) == Some(e)`. -/
theorem c7_roundtrip_lookup (base : Nat) (root : String) (ws : List WEntry)
    (cb : FTree → Nat → Except MError Unit) (t : FTree)
    (hb : buildWith root ws cb = .ok t)
    (hs : ∀ w ∈ ws, w.depth + base = w.path.length ∧ w.path ≠ [])
    (hn : (ws.map WEntry.path).Nodup)
    (R c : Nat) (re ce : FEntry)
    (hR : t.entries[R]? = some re) (hc : t.entries[c]? = some ce)
    (hd : t.Desc R c) :
    ∃ rel, ce.pathRelativeTo re = some rel ∧ t.getE R rel = some ce := by
  have haux := buildWith_ok_aux root ws cb t hb
  have inv := buildWithAux_inv cb base ws FTree.emptyT t haux (emptyT_inv base) hs
  have hcomp := buildWithAux_complete cb ws FTree.emptyT t haux
    (by intro i e h; simp [FTree.emptyT] at h)
    (by intro i e h; simp [FTree.emptyT] at h)
    hn
  obtain ⟨hdep, hlen, htake⟩ := desc_path_facts base t inv hd re ce hR hc
  have hstarts : listStarts re.path ce.path = true := by
    unfold listStarts
    rw [htake]
    simp
  have hdrop : ce.path.length - (ce.depth - re.depth) = re.path.length := by omega
  refine ⟨ce.path.drop re.path.length, ?_, ?_⟩
  · simp only [FEntry.pathRelativeTo, hstarts, if_true]
    rw [hdrop]
  · simp only [FTree.getE, FTree.getId, hR]
    have hjoin : re.path ++ ce.path.drop re.path.length = ce.path := by
      conv_rhs => rw [← List.take_append_drop re.path.length ce.path]
      rw [htake]
    rw [hjoin, hcomp c ce hc]
    simp [hc]

/-- C7 witness: the round trip on the concrete two-entry build, from the root
to the file entry. -/
theorem c7_roundtrip_lookup_witness :
    ∃ rel, FEntry.pathRelativeTo ⟨1, [("r"), ("a")], ("a"), true, some 0, [], 1⟩
        ⟨0, [("r")], ("r"), false, none, [1], 0⟩ = some rel ∧
      c67Tree.getE 0 rel = some ⟨1, [("r"), ("a")], ("a"), true, some 0, [], 1⟩ :=
  c7_roundtrip_lookup 1 ("r") c67Stream okCallback c67Tree rfl (by decide) (by decide)
    0 1 ⟨0, [("r")], ("r"), false, none, [1], 0⟩
    ⟨1, [("r"), ("a")], ("a"), true, some 0, [], 1⟩ rfl rfl
    (FTree.Desc.step (FTree.Desc.refl 0) rfl rfl)

end Harper
